import Mathlib

/-!
Shallow embedding of the ECS schedule-orchestration layer implemented in
`src/rust/src/ecs.rs` (a thin layer over `bevy_ecs` driven by godot's
per-frame callbacks).

Modelling choices, stated once:

* Elapsed-time deltas are `f64` in the source but are only ever stored and
  read back verbatim (no arithmetic), so they are modelled as `Rat`.
* Distinct Rust event types `T` and state types `S` are modelled as `Nat`
  indices (`EvType`, `SType`); event payloads and state values are `Nat`.
* A typed resource that may be absent is an `Option`.
* A bevy system is modelled as a run condition plus a run function on the
  world.  The run condition may consult and update a per-system-instance
  local `Bool` (this is how `run_once()` keeps its captured flag).  The run
  function returns the new world together with a list of trace events
  (`SysEv`) recording observable executions; the dispatcher additionally
  records which labels it attempted and ran and which delta it wrote
  (`Ev`).
* `Events<T>` is external `bevy_ecs` code; following the spec's interface
  boundary (§3, §4.2) it is modelled as a single ordered buffer, and
  `events.update()` as clearing that buffer.
* Host-engine effects (godot input polling, `tree.quit()`) are outside the
  ECS world and are modelled as no-ops on it.
-/

/-- Elapsed-time values (`f64` in the source; stored and read verbatim,
never computed with). -/
abbrev Delta := Rat

/-- Index identifying a distinct Rust state type `S`. -/
abbrev SType := Nat

/-- Index identifying a distinct Rust event type `T`. -/
abbrev EvType := Nat

/-- Schedule labels: the five unit structs declared at
`src/rust/src/ecs.rs:173-186` plus an open supply of user labels
(labels are an open set of interned identifiers, spec §9). -/
inductive Label where
  | stateTransition
  | preProcess
  | process
  | physics
  | postPhysics
  | user (n : Nat)
deriving DecidableEq, Repr

/-- The ECS world's resources, as used by the code under verification:
the two delta resources (`src/rust/src/ecs.rs:188-192`), the
`EventUpdateSignal` resource (`:199-200`, `none` when never inserted),
the per-event-type `Events<T>` buffers and the per-state-type `State<S>` /
`NextState<S>` slots (`none` = resource absent; for `nextState` the inner
option is the pending value held by the `NextState` resource). -/
structure World where
  processDelta : Delta
  physicsDelta : Delta
  eventSignal : Option Bool
  events : EvType → Option (List Nat)
  state : SType → Option Nat
  nextState : SType → Option (Option Nat)

/-- Trace events recorded by system executions. -/
inductive SysEv where
  | enterSchedule (s : SType)
  | mark (n : Nat)
deriving DecidableEq, Repr

/-- Trace events recorded during a tick: the dispatcher's delta write, its
attempt to run each label in the order, a successful schedule run, and the
events emitted by the systems themselves. -/
inductive Ev where
  | writeProcessDelta (d : Delta)
  | writePhysicsDelta (d : Delta)
  | attempt (l : Label)
  | ran (l : Label)
  | sys (e : SysEv)
deriving DecidableEq, Repr

/-- A system: a run condition (which may read and update the instance's
local flag — this is how `run_once()` works) and a run function. -/
structure Sys where
  cond : Bool → World → Bool × Bool
  run : World → World × List SysEv

/-- A system instance inside a schedule: the system plus its local flag
(initially `false`). -/
structure SysInst where
  sys : Sys
  loc : Bool

/-- Execute one system instance: evaluate its condition (updating the
local flag), and run it only when the condition holds. -/
def runInst (inst : SysInst) (w : World) : SysInst × World × List SysEv :=
  let c := inst.sys.cond inst.loc w
  if c.1 then
    let r := inst.sys.run w
    (⟨inst.sys, c.2⟩, r.1, r.2)
  else
    (⟨inst.sys, c.2⟩, w, [])

/-- Run a schedule's systems strictly in list order, threading the world
and collecting the trace. -/
def runSystems : List SysInst → World → List SysInst × World × List SysEv
  | [], w => ([], w, [])
  | inst :: rest, w =>
    let r := runInst inst w
    let r2 := runSystems rest r.2.1
    (r.1 :: r2.1, r2.2.1, r.2.2 ++ r2.2.2)

/-- The `Schedules` resource: a mapping from label to the schedule's
ordered list of system instances (association list). -/
abbrev Schedules := List (Label × List SysInst)

/-- Look up the schedule registered for a label. -/
def findSched (l : Label) : Schedules → Option (List SysInst)
  | [] => none
  | (l', insts) :: rest => if l' = l then some insts else findSched l rest

/-- Append systems to the existing schedule for `l`
(`schedule.add_systems(systems)` in `Ecs::add_systems`). -/
def appendSched (l : Label) (new : List SysInst) : Schedules → Schedules
  | [] => []
  | (l', insts) :: rest =>
    if l' = l then (l', insts ++ new) :: rest
    else (l', insts) :: appendSched l new rest

/-- Replace the system list of the schedule for `l` (used to write back
updated local flags after a run). -/
def replaceSched (l : Label) (new : List SysInst) : Schedules → Schedules
  | [] => []
  | (l', insts) :: rest =>
    if l' = l then (l', new) :: rest
    else (l', insts) :: replaceSched l new rest

/-- `ScheduleOrder` (src/rust/src/ecs.rs:156-159). -/
structure ScheduleOrder where
  process : List Label
  physics : List Label

/-- `ScheduleOrder::default` (src/rust/src/ecs.rs:160-171). -/
def ScheduleOrder.default : ScheduleOrder where
  process := [Label.stateTransition, Label.preProcess, Label.process]
  physics := [Label.physics, Label.postPhysics]

/-- The `Ecs` node: the world, the `Schedules` resource (kept alongside
the world here because schedules hold functions over the world), and the
schedule order (src/rust/src/ecs.rs:4-12). -/
structure Ecs where
  world : World
  schedules : Schedules
  scheduleOrder : ScheduleOrder

/-- Overwrite the `Events<T>` resource slot for `t`. -/
def World.setEvents (w : World) (t : EvType) (v : Option (List Nat)) : World :=
  { w with events := fun u => if u = t then v else w.events u }

/-- Overwrite the `State<S>` resource slot for `s`. -/
def World.setState (w : World) (s : SType) (v : Option Nat) : World :=
  { w with state := fun u => if u = s then v else w.state u }

/-- Overwrite the `NextState<S>` resource slot for `s`. -/
def World.setNextState (w : World) (s : SType) (v : Option (Option Nat)) : World :=
  { w with nextState := fun u => if u = s then v else w.nextState u }

/-- `event_queue_update_system` (src/rust/src/ecs.rs:203-207): if the
`EventUpdateSignal` resource is present, set it to `true`; otherwise do
nothing.  It touches no other resource. -/
def event_queue_update_system : Sys where
  cond := fun l _ => (true, l)
  run := fun w =>
    match w.eventSignal with
    | some _ => ({ w with eventSignal := some true }, [])
    | none => (w, [])

/-- `bevy_ecs::event::event_update_condition::<T>` — the external run
condition attached in `Ecs::add_event` (src/rust/src/ecs.rs:108): true iff
`T`'s buffer is nonempty (single-buffer view of `Events<T>`). -/
def event_update_condition (t : EvType) : Bool → World → Bool × Bool :=
  fun l w =>
    (match w.events t with
     | some es => !es.isEmpty
     | none => false, l)

/-- `events.update()` at src/rust/src/ecs.rs:222, in the spec's
single-buffer view: clear `T`'s buffer (when the resource is present). -/
def clearBuffer (t : EvType) (w : World) : World :=
  w.setEvents t ((w.events t).map fun _ => [])

/-- `event_update_system::<T>` (src/rust/src/ecs.rs:210-223): if the
signal resource is present, atomically replace it with `false` and return
early when the old value was `false`; otherwise fall through to
`events.update()`. -/
def event_update_system (t : EvType) : Sys where
  cond := event_update_condition t
  run := fun w =>
    match w.eventSignal with
    | some b =>
      let w' := { w with eventSignal := some false }
      if b then (clearBuffer t w', []) else (w', [])
    | none => (clearBuffer t w, [])

/-- The quit-on-escape system placed in the default `Process` schedule
(src/rust/src/ecs.rs:76-88).  It reads the host input singleton and may
request host termination; it mutates no ECS resource, so on the world it
is the identity. -/
def quitOnEscapeSystem : Sys where
  cond := fun l _ => (true, l)
  run := fun w => (w, [])

/-- `bevy_ecs::schedule::run_once()`: a run condition that is true on its
first evaluation only, via a captured flag. -/
def run_once : Bool → World → Bool × Bool := fun l _ => (!l, true)

/-- `run_enter_schedule::<S>` guarded by `run_once()`
(src/rust/src/ecs.rs:145): runs the `OnEnter` schedule of the initial
state.  This repository registers no `OnEnter` schedules, so the run has
no effect on the world; its execution is recorded in the trace. -/
def run_enter_schedule (s : SType) : Sys where
  cond := run_once
  run := fun w => (w, [SysEv.enterSchedule s])

/-- `apply_state_transition::<S>` (external bevy_ecs, spec §3/§4.3): if
`NextState<S>` holds a pending value, move it into `State<S>` and clear
the pending slot; otherwise do nothing. -/
def apply_state_transition (s : SType) : Sys where
  cond := fun l _ => (true, l)
  run := fun w =>
    (match w.nextState s with
     | some (some v) => (w.setState s (some v)).setNextState s (some none)
     | _ => w, [])

/-- `Ecs::schedules` (src/rust/src/ecs.rs:71-97): the two schedules built
at startup — `Process` holding the quit system and `PostPhysics` holding
`event_queue_update_system`.  (Named `defaultSchedules` because `schedules`
is the field name in `Ecs`.) -/
def Ecs.defaultSchedules : Schedules :=
  [(Label.process, [⟨quitOnEscapeSystem, false⟩]),
   (Label.postPhysics, [⟨event_queue_update_system, false⟩])]

/-- `Ecs::init` + `Ecs::world` (src/rust/src/ecs.rs:16-37, 62-69): fresh
world with the two delta resources at their defaults, the startup
schedules, the default order, and no `EventUpdateSignal`, `Events<T>`,
`State<S>` or `NextState<S>` resources. -/
def Ecs.init : Ecs where
  world :=
    { processDelta := 0
      physicsDelta := 0
      eventSignal := none
      events := fun _ => none
      state := fun _ => none
      nextState := fun _ => none }
  schedules := Ecs.defaultSchedules
  scheduleOrder := ScheduleOrder.default

/-- `Ecs::add_systems` (src/rust/src/ecs.rs:115-132): append to the
label's schedule when it exists, otherwise create a new schedule holding
the systems and insert it. -/
def Ecs.add_systems (e : Ecs) (label : Label) (systems : List SysInst) : Ecs :=
  { e with
    schedules :=
      match findSched label e.schedules with
      | some _ => appendSched label systems e.schedules
      | none => e.schedules ++ [(label, systems)] }

/-- `Ecs::add_event::<T>` (src/rust/src/ecs.rs:99-113): when `Events<T>`
is absent, create it and register the guarded update system in
`PreProcess`; otherwise do nothing. -/
def Ecs.add_event (e : Ecs) (t : EvType) : Ecs :=
  if (e.world.events t).isSome then e
  else
    let e' := { e with world := e.world.setEvents t (some []) }
    e'.add_systems Label.preProcess [⟨event_update_system t, false⟩]

/-- `Ecs::init_state::<S>` (src/rust/src/ecs.rs:134-153): when `State<S>`
is absent, create `State<S>` (at `S::default()`, modelled as `0`) and
`NextState<S>` (empty) and register the chained enter/apply systems in
`StateTransition`; otherwise do nothing. -/
def Ecs.init_state (e : Ecs) (s : SType) : Ecs :=
  if (e.world.state s).isSome then e
  else
    let e' :=
      { e with world := (e.world.setState s (some 0)).setNextState s (some none) }
    e'.add_systems Label.stateTransition
      [⟨run_enter_schedule s, false⟩, ⟨apply_state_transition s, false⟩]

/-- `world.try_run_schedule(label)` (src/rust/src/ecs.rs:47,56): error
when no schedule is registered for the label, otherwise run its systems in
order and write back their updated local flags. -/
def Ecs.try_run_schedule (e : Ecs) (l : Label) : Except Unit (Ecs × List Ev) :=
  match findSched l e.schedules with
  | none => Except.error ()
  | some insts =>
    let r := runSystems insts e.world
    Except.ok
      ({ e with world := r.2.1, schedules := replaceSched l r.1 e.schedules },
       Ev.ran l :: r.2.2.map Ev.sys)

/-- The dispatcher's loop over an order's labels
(src/rust/src/ecs.rs:46-48, 55-57): attempt each label in turn and discard
any error (`.ok()`), so one label's failure never stops the rest. -/
def runLabels : Ecs → List Label → Ecs × List Ev
  | e, [] => (e, [])
  | e, l :: ls =>
    let step :=
      match e.try_run_schedule l with
      | Except.ok r => r
      | Except.error _ => (e, [])
    let rest := runLabels step.1 ls
    (rest.1, (Ev.attempt l :: step.2) ++ rest.2)

/-- `Ecs::process` (src/rust/src/ecs.rs:42-49): overwrite `ProcessDelta`
with the elapsed value, then run the process-order labels. -/
def Ecs.process (e : Ecs) (d : Delta) : Ecs × List Ev :=
  let e1 := { e with world := { e.world with processDelta := d } }
  let r := runLabels e1 e1.scheduleOrder.process
  (r.1, Ev.writeProcessDelta d :: r.2)

/-- `Ecs::physics_process` (src/rust/src/ecs.rs:51-58): overwrite
`PhysicsDelta` with the elapsed value, then run the physics-order
labels. -/
def Ecs.physics_process (e : Ecs) (d : Delta) : Ecs × List Ev :=
  let e1 := { e with world := { e.world with physicsDelta := d } }
  let r := runLabels e1 e1.scheduleOrder.physics
  (r.1, Ev.writePhysicsDelta d :: r.2)

/-- The labels a trace shows the dispatcher attempted, in order. -/
def attempts (tr : List Ev) : List Label :=
  tr.filterMap fun ev =>
    match ev with
    | Ev.attempt l => some l
    | _ => none

/-- A sequence of process ticks with the given elapsed values,
concatenating the traces. -/
def Ecs.runTicks (e : Ecs) : List Delta → Ecs × List Ev
  | [] => (e, [])
  | d :: ds =>
    let r := e.process d
    let rest := r.1.runTicks ds
    (rest.1, r.2 ++ rest.2)

/-- How many times the trace records an execution of `S`'s enter
schedule. -/
def countEnter (s : SType) (tr : List Ev) : Nat :=
  tr.count (Ev.sys (SysEv.enterSchedule s))

/-- How many times a system trace records an execution of `S`'s enter
schedule. -/
def countEnterSys (s : SType) (tr : List SysEv) : Nat :=
  tr.count (SysEv.enterSchedule s)

/-- A test system instance that records the marker `n` and changes
nothing; used to observe in what order a schedule executes its
systems. -/
def markInst (n : Nat) : SysInst :=
  ⟨⟨fun l _ => (true, l), fun w => (w, [SysEv.mark n])⟩, false⟩

/-- `f`'s view of the world is unchanged by one run of this system. -/
def PreservesF {α : Type} (f : World → α) (i : SysInst) : Prop :=
  ∀ w, f (i.sys.run w).1 = f w

/-- Every system registered in any schedule preserves `f`'s view of the
world. -/
def SchedsPreserve {α : Type} (f : World → α) (s : Schedules) : Prop :=
  ∀ p ∈ s, ∀ i ∈ p.2, PreservesF f i

/-- This system's run never records an execution of `S`'s enter
schedule. -/
def NeverEnter (s : SType) (i : SysInst) : Prop :=
  ∀ w, SysEv.enterSchedule s ∉ (i.sys.run w).2

/-- Invariant for the enter-once argument: the `StateTransition` schedule
holds exactly `S`'s chained enter/apply pair, the enter instance's
run-once flag being `b`, and no system registered under any other label
ever records an enter of `S`. -/
def EnterOnceInv (s : SType) (b : Bool) (e : Ecs) : Prop :=
  (∃ b', findSched Label.stateTransition e.schedules =
    some [⟨run_enter_schedule s, b⟩, ⟨apply_state_transition s, b'⟩]) ∧
  ∀ l insts, l ≠ Label.stateTransition → findSched l e.schedules = some insts →
    ∀ i ∈ insts, NeverEnter s i

/-- Invariant for the transition argument: the `StateTransition` schedule
holds exactly `S`'s chained enter/apply pair, and no system registered
under any other label writes `State<S>` or `NextState<S>`. -/
def TransitionInv (s : SType) (e : Ecs) : Prop :=
  (∃ b b', findSched Label.stateTransition e.schedules =
    some [⟨run_enter_schedule s, b⟩, ⟨apply_state_transition s, b'⟩]) ∧
  ∀ l insts, l ≠ Label.stateTransition → findSched l e.schedules = some insts →
    ∀ i ∈ insts,
      PreservesF (fun w => w.state s) i ∧ PreservesF (fun w => w.nextState s) i

/-- A concrete world used to exercise the theorems: the update signal is
present (and `false`), everything else empty. -/
def sampleWorld : World where
  processDelta := 0
  physicsDelta := 0
  eventSignal := some false
  events := fun _ => none
  state := fun _ => none
  nextState := fun _ => none

/-- A concrete world whose update signal is present and `true` and whose
buffers for event types `0` and `1` hold pending events. -/
def signalTrueWorld : World where
  processDelta := 0
  physicsDelta := 0
  eventSignal := some true
  events := fun u => if u = 0 then some [1, 2] else if u = 1 then some [3] else none
  state := fun _ => none
  nextState := fun _ => none

/-! ### Association-list lemmas for the schedule registry -/

theorem findSched_appendSched (l l' : Label) (new : List SysInst) (s : Schedules) :
    findSched l' (appendSched l new s) =
      if l' = l then (findSched l s).map (fun insts => insts ++ new)
      else findSched l' s := by
  induction s with
  | nil => by_cases h : l' = l <;> simp [appendSched, findSched, h]
  | cons p rest ih =>
    obtain ⟨k, insts⟩ := p
    by_cases hk : k = l <;> by_cases hl : l' = l <;> by_cases hkl : k = l' <;>
      simp_all [appendSched, findSched]

theorem findSched_replaceSched (l l' : Label) (new : List SysInst) (s : Schedules) :
    findSched l' (replaceSched l new s) =
      if l' = l then (findSched l s).map (fun _ => new)
      else findSched l' s := by
  induction s with
  | nil => by_cases h : l' = l <;> simp [replaceSched, findSched, h]
  | cons p rest ih =>
    obtain ⟨k, insts⟩ := p
    by_cases hk : k = l <;> by_cases hl : l' = l <;> by_cases hkl : k = l' <;>
      simp_all [replaceSched, findSched]

theorem findSched_append_left (l : Label) (s₁ s₂ : Schedules) (x : List SysInst)
    (h : findSched l s₁ = some x) : findSched l (s₁ ++ s₂) = some x := by
  induction s₁ with
  | nil => simp [findSched] at h
  | cons p rest ih =>
    obtain ⟨k, insts⟩ := p
    by_cases hk : k = l <;> simp_all [findSched]

theorem findSched_append_right (l : Label) (s₁ s₂ : Schedules)
    (h : findSched l s₁ = none) : findSched l (s₁ ++ s₂) = findSched l s₂ := by
  induction s₁ with
  | nil => simp
  | cons p rest ih =>
    obtain ⟨k, insts⟩ := p
    by_cases hk : k = l <;> simp_all [findSched]

theorem findSched_mem (l : Label) (s : Schedules) (insts : List SysInst)
    (h : findSched l s = some insts) : (l, insts) ∈ s := by
  induction s with
  | nil => simp [findSched] at h
  | cons p rest ih =>
    obtain ⟨k, insts'⟩ := p
    by_cases hk : k = l <;> simp_all [findSched]

theorem Ecs.add_systems_world (e : Ecs) (l : Label) (systems : List SysInst) :
    (e.add_systems l systems).world = e.world := rfl

theorem Ecs.add_systems_order (e : Ecs) (l : Label) (systems : List SysInst) :
    (e.add_systems l systems).scheduleOrder = e.scheduleOrder := rfl

theorem findSched_add_systems_self (e : Ecs) (l : Label) (systems : List SysInst) :
    findSched l (e.add_systems l systems).schedules =
      some ((findSched l e.schedules).getD [] ++ systems) := by
  unfold Ecs.add_systems
  cases h : findSched l e.schedules with
  | some insts => simp [h, findSched_appendSched]
  | none => simp [h, findSched_append_right l e.schedules _ h, findSched]

theorem findSched_add_systems_ne (e : Ecs) (l l' : Label) (systems : List SysInst)
    (h : l' ≠ l) :
    findSched l' (e.add_systems l systems).schedules = findSched l' e.schedules := by
  unfold Ecs.add_systems
  cases hc : findSched l e.schedules with
  | some insts => simp [findSched_appendSched, h]
  | none =>
    cases hc' : findSched l' e.schedules with
    | some x => simp [findSched_append_left l' e.schedules _ x hc', hc']
    | none => simp [findSched_append_right l' e.schedules _ hc', findSched, h, Ne.symm h, hc']

/-! ### Trace lemmas for the dispatcher -/

theorem attempts_append (a b : List Ev) : attempts (a ++ b) = attempts a ++ attempts b := by
  simp [attempts]

theorem attempts_map_sys (xs : List SysEv) : attempts (xs.map Ev.sys) = [] := by
  induction xs with
  | nil => rfl
  | cons x xs ih =>
    simp only [attempts] at ih ⊢
    simp [ih]

theorem attempts_try_run_schedule (e : Ecs) (l : Label) (r : Ecs × List Ev)
    (h : e.try_run_schedule l = Except.ok r) : attempts r.2 = [] := by
  unfold Ecs.try_run_schedule at h
  cases hc : findSched l e.schedules with
  | none => simp [hc] at h
  | some insts =>
    simp only [hc] at h
    cases h
    have := attempts_map_sys (runSystems insts e.world).2.2
    simp only [attempts] at this ⊢
    simp [this]

theorem attempts_runLabels (ls : List Label) (e : Ecs) :
    attempts (runLabels e ls).2 = ls := by
  induction ls generalizing e with
  | nil => rfl
  | cons l ls ih =>
    unfold runLabels
    cases h : e.try_run_schedule l with
    | ok r =>
      have h0 := attempts_try_run_schedule e l r h
      have h1 := ih r.1
      simp only [h]
      simp only [attempts] at h0 h1 ⊢
      simp [h0, h1]
    | error u =>
      simp only [h]
      simpa [attempts] using ih e

theorem try_run_schedule_ok_inv (e : Ecs) (l : Label) (r : Ecs × List Ev)
    (h : e.try_run_schedule l = Except.ok r) :
    ∃ insts, findSched l e.schedules = some insts ∧
      r.1.world = (runSystems insts e.world).2.1 ∧
      r.1.schedules = replaceSched l (runSystems insts e.world).1 e.schedules ∧
      r.1.scheduleOrder = e.scheduleOrder ∧
      r.2 = Ev.ran l :: (runSystems insts e.world).2.2.map Ev.sys := by
  unfold Ecs.try_run_schedule at h
  cases hc : findSched l e.schedules with
  | none => simp [hc] at h
  | some insts =>
    simp only [hc] at h
    cases h
    exact ⟨insts, rfl, rfl, rfl, rfl, rfl⟩

theorem try_run_schedule_error_iff (e : Ecs) (l : Label) (u : Unit) :
    e.try_run_schedule l = Except.error u ↔ findSched l e.schedules = none := by
  unfold Ecs.try_run_schedule
  cases hc : findSched l e.schedules <;> simp

theorem ran_notMem_runLabels (ls : List Label) (e : Ecs) (l : Label)
    (h : findSched l e.schedules = none) :
    Ev.ran l ∉ (runLabels e ls).2 ∧
      findSched l (runLabels e ls).1.schedules = none := by
  induction ls generalizing e with
  | nil => exact ⟨by simp [runLabels], h⟩
  | cons l0 ls ih =>
    unfold runLabels
    cases hc : e.try_run_schedule l0 with
    | error u =>
      have hrec := ih e h
      simp only [hc]
      refine ⟨?_, hrec.2⟩
      intro hm
      rcases List.mem_append.mp hm with hm | hm
      · simp at hm
      · exact hrec.1 hm
    | ok r =>
      obtain ⟨insts, hfound, _, hsched, _, htr⟩ := try_run_schedule_ok_inv e l0 r hc
      have hne : l0 ≠ l := fun he => by rw [he, h] at hfound; cases hfound
      have hstill : findSched l r.1.schedules = none := by
        rw [hsched, findSched_replaceSched]
        simp [Ne.symm hne, h]
      have hrec := ih r.1 hstill
      simp only [hc]
      refine ⟨?_, hrec.2⟩
      intro hm
      rcases List.mem_append.mp hm with hm | hm
      · rcases List.mem_cons.mp hm with hm | hm
        · cases hm
        · rw [htr] at hm
          rcases List.mem_cons.mp hm with hm | hm
          · cases hm; exact hne rfl
          · rcases List.mem_map.mp hm with ⟨x, _, hx⟩
            cases hx
      · exact hrec.1 hm

theorem attempts_cons_writeProcess (d : Delta) (tr : List Ev) :
    attempts (Ev.writeProcessDelta d :: tr) = attempts tr := by
  simp [attempts]

theorem attempts_cons_writePhysics (d : Delta) (tr : List Ev) :
    attempts (Ev.writePhysicsDelta d :: tr) = attempts tr := by
  simp [attempts]

/-- C2: on a process tick with elapsed value `d` the dispatcher first
overwrites `ProcessDelta` with `d` (the first trace event) and then
attempts the schedule labels in exactly the order state-transition,
pre-process, process; on a physics tick it overwrites `PhysicsDelta` and
then attempts physics, post-physics, in that order. -/
theorem process_writes_delta_then_runs_order (e : Ecs) (d d' : Delta)
    (h : e.scheduleOrder = ScheduleOrder.default) :
    (e.process d).2.head? = some (Ev.writeProcessDelta d) ∧
    attempts (e.process d).2 =
      [Label.stateTransition, Label.preProcess, Label.process] ∧
    (e.physics_process d').2.head? = some (Ev.writePhysicsDelta d') ∧
    attempts (e.physics_process d').2 = [Label.physics, Label.postPhysics] := by
  have hp : (e.process d).2 =
      Ev.writeProcessDelta d ::
        (runLabels { e with world := { e.world with processDelta := d } }
          e.scheduleOrder.process).2 := rfl
  have hq : (e.physics_process d').2 =
      Ev.writePhysicsDelta d' ::
        (runLabels { e with world := { e.world with physicsDelta := d' } }
          e.scheduleOrder.physics).2 := rfl
  refine ⟨by rw [hp]; rfl, ?_, by rw [hq]; rfl, ?_⟩
  · rw [hp, attempts_cons_writeProcess, attempts_runLabels, h]; rfl
  · rw [hq, attempts_cons_writePhysics, attempts_runLabels, h]; rfl

/-- Witness for C2 at the startup `Ecs`. -/
theorem process_writes_delta_then_runs_order_witness :
    attempts (Ecs.init.process 1).2 =
      [Label.stateTransition, Label.preProcess, Label.process] :=
  (process_writes_delta_then_runs_order Ecs.init 1 2 rfl).2.1

/-- C4: a label with no registered schedule (the only failure
`try_run_schedule` reports, and the one `.ok()` discards) does not abort
the tick.  Unconditionally, every label of either order is attempted on
its tick — in particular all labels after any failing position — and the
tick function is total, returning its trace normally; additionally, for
any position of either order independently, if that label has no
registered schedule it is never run while the rest of the tick still
proceeds. -/
theorem failed_schedule_does_not_abort_tick (e : Ecs) (d d' : Delta) (i j : Nat)
    (hi : i < e.scheduleOrder.process.length)
    (hj : j < e.scheduleOrder.physics.length) :
    attempts (e.process d).2 = e.scheduleOrder.process ∧
    attempts (e.physics_process d').2 = e.scheduleOrder.physics ∧
    (findSched (e.scheduleOrder.process.get ⟨i, hi⟩) e.schedules = none →
      Ev.ran (e.scheduleOrder.process.get ⟨i, hi⟩) ∉ (e.process d).2) ∧
    (findSched (e.scheduleOrder.physics.get ⟨j, hj⟩) e.schedules = none →
      Ev.ran (e.scheduleOrder.physics.get ⟨j, hj⟩) ∉ (e.physics_process d').2) := by
  have hp : (e.process d).2 =
      Ev.writeProcessDelta d ::
        (runLabels { e with world := { e.world with processDelta := d } }
          e.scheduleOrder.process).2 := rfl
  have hq : (e.physics_process d').2 =
      Ev.writePhysicsDelta d' ::
        (runLabels { e with world := { e.world with physicsDelta := d' } }
          e.scheduleOrder.physics).2 := rfl
  refine ⟨?_, ?_, ?_, ?_⟩
  · rw [hp, attempts_cons_writeProcess, attempts_runLabels]
  · rw [hq, attempts_cons_writePhysics, attempts_runLabels]
  · intro hpi
    rw [hp]
    intro hm
    rcases List.mem_cons.mp hm with hm | hm
    · cases hm
    · exact (ran_notMem_runLabels e.scheduleOrder.process
        { e with world := { e.world with processDelta := d } } _ hpi).1 hm
  · intro hpj
    rw [hq]
    intro hm
    rcases List.mem_cons.mp hm with hm | hm
    · cases hm
    · exact (ran_notMem_runLabels e.scheduleOrder.physics
        { e with world := { e.world with physicsDelta := d' } } _ hpj).1 hm

/-- Witness for C4 at the startup `Ecs`, whose `StateTransition` label
(process order, position 0) and `Physics` label (physics order, position
0) have no registered schedule. -/
theorem failed_schedule_does_not_abort_tick_witness :
    attempts (Ecs.init.process 1).2 = Ecs.init.scheduleOrder.process ∧
    attempts (Ecs.init.physics_process 2).2 = Ecs.init.scheduleOrder.physics ∧
    Ev.ran Label.stateTransition ∉ (Ecs.init.process 1).2 ∧
    Ev.ran Label.physics ∉ (Ecs.init.physics_process 2).2 := by
  have h := failed_schedule_does_not_abort_tick Ecs.init 1 2 0 0
    (by decide) (by decide)
  exact ⟨h.1, h.2.1, h.2.2.1 rfl, h.2.2.2 rfl⟩

/-- C5: registering systems creates the schedule when absent and appends
to the existing one otherwise (so creation is idempotent), registering the
same system twice puts it in the list twice (and hence runs it twice), and
a schedule's systems execute strictly in append order, as the mark trace
shows. -/
theorem add_systems_appends_and_runs_in_order (e : Ecs) (l : Label)
    (systems : List SysInst) (i : SysInst) :
    findSched l (e.add_systems l systems).schedules =
      some ((findSched l e.schedules).getD [] ++ systems) ∧
    findSched l ((e.add_systems l [i]).add_systems l [i]).schedules =
      some ((findSched l e.schedules).getD [] ++ [i, i]) ∧
    ∀ (ns : List Nat) (w : World),
      (runSystems (ns.map markInst) w).2.2 = ns.map SysEv.mark := by
  refine ⟨findSched_add_systems_self e l systems, ?_, ?_⟩
  · rw [findSched_add_systems_self, findSched_add_systems_self]
    simp
  · intro ns w
    induction ns generalizing w with
    | nil => rfl
    | cons n ns ih => simp [runSystems, runInst, markInst, ih]

theorem Ecs.add_event_of_isSome (e : Ecs) (t : EvType)
    (h : (e.world.events t).isSome) : e.add_event t = e := by
  unfold Ecs.add_event
  simp [h]

theorem Ecs.add_event_of_none (e : Ecs) (t : EvType)
    (h : e.world.events t = none) :
    e.add_event t =
      ({ e with world := e.world.setEvents t (some []) }).add_systems
        Label.preProcess [⟨event_update_system t, false⟩] := by
  unfold Ecs.add_event
  simp [h]

/-- C9: one run of the clear-request system (`event_queue_update_system`)
sets the `EventUpdateSignal` resource to `true` when it is present and is
a complete no-op when it is absent; in either case every event buffer and
every other resource is left unchanged — it clears nothing itself. -/
theorem event_queue_update_sets_signal_only (w : World) :
    (w.eventSignal = none → (event_queue_update_system.run w).1 = w) ∧
    (∀ b, w.eventSignal = some b →
      (event_queue_update_system.run w).1.eventSignal = some true) ∧
    (event_queue_update_system.run w).1.events = w.events ∧
    (event_queue_update_system.run w).1.state = w.state ∧
    (event_queue_update_system.run w).1.nextState = w.nextState ∧
    (event_queue_update_system.run w).1.processDelta = w.processDelta ∧
    (event_queue_update_system.run w).1.physicsDelta = w.physicsDelta := by
  cases h : w.eventSignal <;> simp [event_queue_update_system, h]

/-- Witness for C9: with the signal present (and `false`), one run leaves
it `true`. -/
theorem event_queue_update_sets_signal_only_witness :
    (event_queue_update_system.run sampleWorld).1.eventSignal = some true :=
  (event_queue_update_sets_signal_only sampleWorld).2.1 false rfl

/-- C1: one run of `T`'s auto-inserted update system: with the signal
resource absent it clears `T`'s buffer; with the signal present it clears
exactly when the signal was `true` at entry, and after the run the signal
is `false` in every case — the consumed clear request is no longer
pending. -/
theorem event_update_system_run_spec (t : EvType) (w : World) :
    (w.eventSignal = none →
      ((event_update_system t).run w).1.events t =
        (w.events t).map (fun _ => []) ∧
      ((event_update_system t).run w).1.eventSignal = none) ∧
    (∀ b, w.eventSignal = some b →
      ((event_update_system t).run w).1.events t =
        (if b then (w.events t).map (fun _ => []) else w.events t) ∧
      ((event_update_system t).run w).1.eventSignal = some false) := by
  cases h : w.eventSignal with
  | none => simp [event_update_system, h, clearBuffer, World.setEvents]
  | some b => cases b <;> simp [event_update_system, h, clearBuffer, World.setEvents]

/-- Witness for C1: with the signal `true` and two pending events of type
`0`, one run clears the buffer and resets the signal. -/
theorem event_update_system_run_spec_witness :
    ((event_update_system 0).run signalTrueWorld).1.events 0 = some [] ∧
    ((event_update_system 0).run signalTrueWorld).1.eventSignal = some false := by
  have h := (event_update_system_run_spec 0 signalTrueWorld).2 true rfl
  refine ⟨?_, h.2⟩
  rw [h.1]
  simp [signalTrueWorld]

/-- C8: `add_event::<T>` is idempotent — the second call for the same `T`
changes nothing — and the first call on an `Ecs` without `Events<T>`
creates the empty buffer resource and appends `T`'s guarded update system
to the `PreProcess` schedule. -/
theorem add_event_idempotent (e : Ecs) (t : EvType) :
    (e.add_event t).add_event t = e.add_event t ∧
    (e.world.events t = none →
      (e.add_event t).world.events t = some [] ∧
      findSched Label.preProcess (e.add_event t).schedules =
        some ((findSched Label.preProcess e.schedules).getD [] ++
          [⟨event_update_system t, false⟩])) := by
  by_cases hc : (e.world.events t).isSome
  · have h1 : e.add_event t = e := e.add_event_of_isSome t hc
    refine ⟨by rw [h1]; exact h1, ?_⟩
    intro h
    rw [h] at hc
    simp at hc
  · have hnone : e.world.events t = none := Option.not_isSome_iff_eq_none.mp hc
    have h1 := e.add_event_of_none t hnone
    have h2 : (e.add_event t).world.events t = some [] := by
      rw [h1, Ecs.add_systems_world]
      show (e.world.setEvents t (some [])).events t = some []
      simp [World.setEvents]
    refine ⟨(e.add_event t).add_event_of_isSome t (by rw [h2]; rfl), ?_⟩
    intro _
    refine ⟨h2, ?_⟩
    rw [h1, findSched_add_systems_self]

/-- Witness for C8 on the startup `Ecs`, which has no `Events` resource
for type `0`. -/
theorem add_event_idempotent_witness :
    (Ecs.init.add_event 0).add_event 0 = Ecs.init.add_event 0 ∧
    (Ecs.init.add_event 0).world.events 0 = some [] := by
  have h := add_event_idempotent Ecs.init 0
  exact ⟨h.1, (h.2 rfl).1⟩

/-- C10: with two distinct event types registered (in order `t` then `u`)
and the shared signal `true` with both buffers nonempty when `PreProcess`
runs, the first update system clears its buffer and resets the signal,
and the second returns early without clearing — at most one buffer is
cleared per consumed request. -/
theorem shared_signal_consumed_by_first_update (e : Ecs) (t u : EvType)
    (w : World) (es fs : List Nat)
    (hne : t ≠ u)
    (ht : e.world.events t = none) (hu : e.world.events u = none)
    (hsched : findSched Label.preProcess e.schedules = none)
    (hsig : w.eventSignal = some true)
    (hbt : w.events t = some es) (hbu : w.events u = some fs)
    (hest : es ≠ []) (hfst : fs ≠ []) :
    findSched Label.preProcess ((e.add_event t).add_event u).schedules =
      some [⟨event_update_system t, false⟩, ⟨event_update_system u, false⟩] ∧
    (runSystems [⟨event_update_system t, false⟩, ⟨event_update_system u, false⟩]
        w).2.1.events t = some [] ∧
    (runSystems [⟨event_update_system t, false⟩, ⟨event_update_system u, false⟩]
        w).2.1.events u = some fs ∧
    (runSystems [⟨event_update_system t, false⟩, ⟨event_update_system u, false⟩]
        w).2.1.eventSignal = some false := by
  constructor
  · have h1 := e.add_event_of_none t ht
    have h2 : (e.add_event t).world.events u = none := by
      rw [h1, Ecs.add_systems_world]
      show (e.world.setEvents t (some [])).events u = none
      simp [World.setEvents, Ne.symm hne, hu]
    have h3 := (e.add_event t).add_event_of_none u h2
    have h4 : findSched Label.preProcess (e.add_event t).schedules =
        some [⟨event_update_system t, false⟩] := by
      rw [h1, findSched_add_systems_self]
      have : findSched Label.preProcess
          ({ e with world := e.world.setEvents t (some []) } : Ecs).schedules =
            none := hsched
      rw [this]
      rfl
    rw [h3, findSched_add_systems_self]
    have h5 : findSched Label.preProcess
        ({ e.add_event t with
            world := (e.add_event t).world.setEvents u (some []) } : Ecs).schedules =
          some [⟨event_update_system t, false⟩] := h4
    rw [h5]
    rfl
  · obtain ⟨a, as, rfl⟩ := List.exists_cons_of_ne_nil hest
    obtain ⟨b, bs, rfl⟩ := List.exists_cons_of_ne_nil hfst
    refine ⟨?_, ?_, ?_⟩ <;>
      simp [runSystems, runInst, event_update_system, event_update_condition,
        clearBuffer, World.setEvents, hsig, hbt, hbu, hne, Ne.symm hne]

/-- Witness for C10 with event types `0` and `1` on the startup `Ecs` and
a world holding a true signal and nonempty buffers for both types. -/
theorem shared_signal_consumed_by_first_update_witness :
    (runSystems [⟨event_update_system 0, false⟩, ⟨event_update_system 1, false⟩]
        signalTrueWorld).2.1.events 0 = some [] ∧
    (runSystems [⟨event_update_system 0, false⟩, ⟨event_update_system 1, false⟩]
        signalTrueWorld).2.1.events 1 = some [3] ∧
    (runSystems [⟨event_update_system 0, false⟩, ⟨event_update_system 1, false⟩]
        signalTrueWorld).2.1.eventSignal = some false := by
  have h := shared_signal_consumed_by_first_update Ecs.init 0 1 signalTrueWorld
    [1, 2] [3] (by decide) rfl rfl rfl rfl rfl rfl (by decide) (by decide)
  exact ⟨h.2.1, h.2.2.1, h.2.2.2⟩

/-! ### Preservation machinery: systems that do not write a resource keep
the dispatcher from changing it -/

theorem runInst_sys (i : SysInst) (w : World) : (runInst i w).1.sys = i.sys := by
  unfold runInst
  by_cases h : (i.sys.cond i.loc w).1 <;> simp [h]

theorem runInst_preserves {α : Type} (f : World → α) (i : SysInst) (w : World)
    (h : PreservesF f i) : f (runInst i w).2.1 = f w := by
  unfold runInst
  by_cases hc : (i.sys.cond i.loc w).1 <;> simp [hc, h w]

theorem runSystems_map_sys (insts : List SysInst) (w : World) :
    (runSystems insts w).1.map (fun i => i.sys) = insts.map (fun i => i.sys) := by
  induction insts generalizing w with
  | nil => rfl
  | cons i rest ih => simp [runSystems, runInst_sys, ih]

theorem runSystems_preserves {α : Type} (f : World → α) (insts : List SysInst)
    (w : World) (h : ∀ i ∈ insts, PreservesF f i) :
    f (runSystems insts w).2.1 = f w := by
  induction insts generalizing w with
  | nil => rfl
  | cons i rest ih =>
    simp only [runSystems]
    rw [ih _ (fun j hj => h j (List.mem_cons_of_mem i hj)),
      runInst_preserves f i w (h i (List.mem_cons_self i rest))]

theorem preservesF_of_sys_eq {α : Type} (f : World → α) (i j : SysInst)
    (h : i.sys = j.sys) (hp : PreservesF f j) : PreservesF f i := by
  intro w
  rw [h]
  exact hp w

theorem runSystems_forall_preserves {α : Type} (f : World → α)
    (insts : List SysInst) (w : World) (h : ∀ i ∈ insts, PreservesF f i) :
    ∀ i ∈ (runSystems insts w).1, PreservesF f i := by
  intro i hi
  have hmem : i.sys ∈ insts.map (fun i => i.sys) := by
    rw [← runSystems_map_sys insts w]
    exact List.mem_map_of_mem _ hi
  rcases List.mem_map.mp hmem with ⟨j, hj, hsys⟩
  exact preservesF_of_sys_eq f i j hsys.symm (h j hj)

theorem mem_replaceSched (l : Label) (new : List SysInst) (s : Schedules)
    (p : Label × List SysInst) (h : p ∈ replaceSched l new s) :
    p.2 = new ∨ p ∈ s := by
  induction s with
  | nil => simp [replaceSched] at h
  | cons q rest ih =>
    obtain ⟨k, insts⟩ := q
    by_cases hk : k = l
    · simp only [replaceSched, if_pos hk] at h
      rcases List.mem_cons.mp h with h | h
      · left; rw [h]
      · right; exact List.mem_cons_of_mem _ h
    · simp only [replaceSched, if_neg hk] at h
      rcases List.mem_cons.mp h with h | h
      · right; rw [h]; exact List.mem_cons_self _ _
      · rcases ih h with h | h
        · left; exact h
        · right; exact List.mem_cons_of_mem _ h

theorem schedsPreserve_replaceSched {α : Type} (f : World → α) (s : Schedules)
    (l : Label) (new : List SysInst) (h : SchedsPreserve f s)
    (hnew : ∀ i ∈ new, PreservesF f i) :
    SchedsPreserve f (replaceSched l new s) := by
  intro p hp i hi
  rcases mem_replaceSched l new s p hp with h2 | h2
  · exact hnew i (h2 ▸ hi)
  · exact h p h2 i hi

theorem try_run_schedule_preserves {α : Type} (f : World → α) (e : Ecs)
    (l : Label) (r : Ecs × List Ev) (hp : SchedsPreserve f e.schedules)
    (h : e.try_run_schedule l = Except.ok r) :
    f r.1.world = f e.world ∧ SchedsPreserve f r.1.schedules ∧
      r.1.scheduleOrder = e.scheduleOrder := by
  obtain ⟨insts, hfound, hw, hs, ho, _⟩ := try_run_schedule_ok_inv e l r h
  have hmem : ∀ i ∈ insts, PreservesF f i :=
    hp _ (findSched_mem l e.schedules insts hfound)
  refine ⟨?_, ?_, ho⟩
  · rw [hw]
    exact runSystems_preserves f insts e.world hmem
  · rw [hs]
    exact schedsPreserve_replaceSched f _ l _ hp
      (runSystems_forall_preserves f insts e.world hmem)

theorem runLabels_preserves {α : Type} (f : World → α) (ls : List Label)
    (e : Ecs) (hp : SchedsPreserve f e.schedules) :
    f (runLabels e ls).1.world = f e.world ∧
      SchedsPreserve f (runLabels e ls).1.schedules ∧
      (runLabels e ls).1.scheduleOrder = e.scheduleOrder := by
  induction ls generalizing e with
  | nil => exact ⟨rfl, hp, rfl⟩
  | cons l ls ih =>
    unfold runLabels
    cases hc : e.try_run_schedule l with
    | error u => simpa using ih e hp
    | ok r =>
      obtain ⟨hw, hs, ho⟩ := try_run_schedule_preserves f e l r hp hc
      have hrec := ih r.1 hs
      simp only [hc]
      exact ⟨hrec.1.trans hw, hrec.2.1, hrec.2.2.trans ho⟩

/-- C3: when no registered system writes the delta resources (none of the
systems in this repository does), the process tick determines
`ProcessDelta` and the physics tick determines `PhysicsDelta`
independently: after `process x` then `physics_process y`, `ProcessDelta`
is `x` throughout and `PhysicsDelta` is `y`, and a tick of one kind never
modifies the other kind's delta. -/
theorem delta_isolation (e : Ecs) (x y : Delta)
    (hp : SchedsPreserve World.processDelta e.schedules)
    (hq : SchedsPreserve World.physicsDelta e.schedules) :
    (e.process x).1.world.processDelta = x ∧
    (e.process x).1.world.physicsDelta = e.world.physicsDelta ∧
    ((e.process x).1.physics_process y).1.world.processDelta = x ∧
    ((e.process x).1.physics_process y).1.world.physicsDelta = y ∧
    (e.physics_process y).1.world.processDelta = e.world.processDelta := by
  have h1 := runLabels_preserves World.processDelta e.scheduleOrder.process
    { e with world := { e.world with processDelta := x } } hp
  have h2 := runLabels_preserves World.physicsDelta e.scheduleOrder.process
    { e with world := { e.world with processDelta := x } } hq
  have hE1 : (e.process x).1 =
      (runLabels { e with world := { e.world with processDelta := x } }
        e.scheduleOrder.process).1 := rfl
  have c1 : (e.process x).1.world.processDelta = x := by rw [hE1]; exact h1.1
  have c2 : (e.process x).1.world.physicsDelta = e.world.physicsDelta := by
    rw [hE1]; exact h2.1
  have hord : (e.process x).1.scheduleOrder = e.scheduleOrder := by
    rw [hE1]; exact h1.2.2
  have h3 := runLabels_preserves World.processDelta
    (e.process x).1.scheduleOrder.physics
    { (e.process x).1 with
      world := { (e.process x).1.world with physicsDelta := y } }
    (by rw [hE1]; exact h1.2.1)
  have h4 := runLabels_preserves World.physicsDelta
    (e.process x).1.scheduleOrder.physics
    { (e.process x).1 with
      world := { (e.process x).1.world with physicsDelta := y } }
    (by rw [hE1]; exact h2.2.1)
  have hE2 : ((e.process x).1.physics_process y).1 =
      (runLabels
        { (e.process x).1 with
          world := { (e.process x).1.world with physicsDelta := y } }
        (e.process x).1.scheduleOrder.physics).1 := rfl
  have h5 := runLabels_preserves World.processDelta e.scheduleOrder.physics
    { e with world := { e.world with physicsDelta := y } } hp
  have hE3 : (e.physics_process y).1 =
      (runLabels { e with world := { e.world with physicsDelta := y } }
        e.scheduleOrder.physics).1 := rfl
  refine ⟨c1, c2, ?_, ?_, ?_⟩
  · rw [hE2]
    exact h3.1.trans c1
  · rw [hE2]
    exact h4.1
  · rw [hE3]
    exact h5.1

/-- Witness for C3 at the startup `Ecs`: both built-in systems leave both
delta resources untouched, and the deltas come out as written. -/
theorem delta_isolation_witness :
    (Ecs.init.process 1).1.world.processDelta = 1 ∧
    ((Ecs.init.process 1).1.physics_process 2).1.world.physicsDelta = 2 := by
  have hp : SchedsPreserve World.processDelta Ecs.init.schedules := by
    intro p hp i hi
    simp only [Ecs.init, Ecs.defaultSchedules, List.mem_cons,
      List.not_mem_nil, or_false] at hp
    rcases hp with rfl | rfl <;>
      · simp only [List.mem_cons, List.not_mem_nil, or_false] at hi
        subst hi
        intro w
        cases h : w.eventSignal <;>
          simp [quitOnEscapeSystem, event_queue_update_system, h]
  have hq : SchedsPreserve World.physicsDelta Ecs.init.schedules := by
    intro p hp i hi
    simp only [Ecs.init, Ecs.defaultSchedules, List.mem_cons,
      List.not_mem_nil, or_false] at hp
    rcases hp with rfl | rfl <;>
      · simp only [List.mem_cons, List.not_mem_nil, or_false] at hi
        subst hi
        intro w
        cases h : w.eventSignal <;>
          simp [quitOnEscapeSystem, event_queue_update_system, h]
  have h := delta_isolation Ecs.init 1 2 hp hq
  exact ⟨h.1, h.2.2.2.1⟩

/-! ### Counting enter-schedule executions (C6 machinery) -/

theorem countEnter_nil (s : SType) : countEnter s [] = 0 := rfl

theorem countEnter_append (s : SType) (a b : List Ev) :
    countEnter s (a ++ b) = countEnter s a + countEnter s b := by
  simp [countEnter]

theorem countEnter_attempt (s : SType) (l : Label) (tr : List Ev) :
    countEnter s (Ev.attempt l :: tr) = countEnter s tr := by
  simp [countEnter]

theorem countEnter_ran (s : SType) (l : Label) (tr : List Ev) :
    countEnter s (Ev.ran l :: tr) = countEnter s tr := by
  simp [countEnter]

theorem countEnter_writeProcess (s : SType) (d : Delta) (tr : List Ev) :
    countEnter s (Ev.writeProcessDelta d :: tr) = countEnter s tr := by
  simp [countEnter]

theorem countEnter_map_sys (s : SType) (tr : List SysEv) :
    countEnter s (tr.map Ev.sys) = countEnterSys s tr := by
  induction tr with
  | nil => rfl
  | cons x xs ih =>
    simp only [List.map_cons, countEnter, countEnterSys, List.count_cons] at *
    rw [ih]
    congr 1
    simp

theorem neverEnter_of_sys_eq (s : SType) (i j : SysInst) (h : i.sys = j.sys)
    (hp : NeverEnter s j) : NeverEnter s i := by
  intro w
  rw [h]
  exact hp w

theorem runInst_no_enter (s : SType) (i : SysInst) (w : World)
    (h : NeverEnter s i) : countEnterSys s (runInst i w).2.2 = 0 := by
  unfold runInst
  by_cases hc : (i.sys.cond i.loc w).1 <;> simp [hc, countEnterSys]
  exact List.count_eq_zero.mpr (h w)

theorem runSystems_no_enter (s : SType) (insts : List SysInst) (w : World)
    (h : ∀ i ∈ insts, NeverEnter s i) :
    countEnterSys s (runSystems insts w).2.2 = 0 := by
  induction insts generalizing w with
  | nil => rfl
  | cons i rest ih =>
    simp only [runSystems, countEnterSys, List.count_append]
    have h1 := runInst_no_enter s i w (h i (List.mem_cons_self i rest))
    have h2 := ih (runInst i w).2.1 (fun j hj => h j (List.mem_cons_of_mem i hj))
    simp only [countEnterSys] at h1 h2
    rw [h1, h2]

theorem runSystems_forall_no_enter (s : SType) (insts : List SysInst) (w : World)
    (h : ∀ i ∈ insts, NeverEnter s i) :
    ∀ i ∈ (runSystems insts w).1, NeverEnter s i := by
  intro i hi
  have hmem : i.sys ∈ insts.map (fun i => i.sys) := by
    rw [← runSystems_map_sys insts w]
    exact List.mem_map_of_mem _ hi
  rcases List.mem_map.mp hmem with ⟨j, hj, hsys⟩
  exact neverEnter_of_sys_eq s i j hsys.symm (h j hj)

/-- One run of the registered `StateTransition` pair: the enter system
fires exactly when its run-once flag is still `false` and flips it, and
the world effect is that of `apply_state_transition` alone. -/
theorem runSystems_transition_pair (s : SType) (b b' : Bool) (w : World) :
    runSystems [⟨run_enter_schedule s, b⟩, ⟨apply_state_transition s, b'⟩] w =
      ([⟨run_enter_schedule s, true⟩, ⟨apply_state_transition s, b'⟩],
       ((apply_state_transition s).run w).1,
       if b then [] else [SysEv.enterSchedule s]) := by
  cases b <;> rfl

theorem runLabels_no_st_enter (s : SType) (ls : List Label) (e : Ecs)
    (hls : ∀ l ∈ ls, l ≠ Label.stateTransition)
    (hne : ∀ l insts, l ≠ Label.stateTransition →
      findSched l e.schedules = some insts → ∀ i ∈ insts, NeverEnter s i) :
    countEnter s (runLabels e ls).2 = 0 ∧
    findSched Label.stateTransition (runLabels e ls).1.schedules =
      findSched Label.stateTransition e.schedules ∧
    (∀ l insts, l ≠ Label.stateTransition →
      findSched l (runLabels e ls).1.schedules = some insts →
      ∀ i ∈ insts, NeverEnter s i) ∧
    (runLabels e ls).1.scheduleOrder = e.scheduleOrder := by
  induction ls generalizing e with
  | nil => exact ⟨rfl, rfl, hne, rfl⟩
  | cons l ls ih =>
    have hl : l ≠ Label.stateTransition := hls l (List.mem_cons_self l ls)
    have hls' : ∀ l' ∈ ls, l' ≠ Label.stateTransition :=
      fun l' hl' => hls l' (List.mem_cons_of_mem l hl')
    unfold runLabels
    cases hc : e.try_run_schedule l with
    | error u =>
      have hrec := ih e hls' hne
      simp only [hc]
      refine ⟨?_, hrec.2.1, hrec.2.2.1, hrec.2.2.2⟩
      rw [countEnter_append, countEnter_attempt, hrec.1, countEnter_nil]
    | ok r =>
      obtain ⟨insts, hfound, hw, hs, ho, htr⟩ := try_run_schedule_ok_inv e l r hc
      have hinsts : ∀ i ∈ insts, NeverEnter s i := hne l insts hl hfound
      have hstr : countEnter s r.2 = 0 := by
        rw [htr, countEnter_ran, countEnter_map_sys]
        exact runSystems_no_enter s insts e.world hinsts
      have hst : findSched Label.stateTransition r.1.schedules =
          findSched Label.stateTransition e.schedules := by
        rw [hs, findSched_replaceSched]
        simp [Ne.symm hl]
      have hne' : ∀ l' insts', l' ≠ Label.stateTransition →
          findSched l' r.1.schedules = some insts' →
          ∀ i ∈ insts', NeverEnter s i := by
        intro l' insts' hl' hfind
        rw [hs, findSched_replaceSched] at hfind
        by_cases hll : l' = l
        · rw [if_pos hll, hfound] at hfind
          simp only [Option.map_some'] at hfind
          injection hfind with h2
          subst h2
          exact runSystems_forall_no_enter s insts e.world hinsts
        · rw [if_neg hll] at hfind
          exact hne l' insts' hl' hfind
      have hrec := ih r.1 hls' hne'
      simp only [hc]
      refine ⟨?_, hrec.2.1.trans hst, hrec.2.2.1, hrec.2.2.2.trans ho⟩
      rw [show (Ev.attempt l :: r.2) ++ (runLabels r.1 ls).2
            = Ev.attempt l :: (r.2 ++ (runLabels r.1 ls).2) by simp,
        countEnter_attempt, countEnter_append, hstr, hrec.1]

theorem runLabels_enter_step (s : SType) (b b' : Bool) (rest : List Label)
    (e : Ecs)
    (hfound : findSched Label.stateTransition e.schedules =
      some [⟨run_enter_schedule s, b⟩, ⟨apply_state_transition s, b'⟩])
    (hrest : ∀ l ∈ rest, l ≠ Label.stateTransition)
    (hne : ∀ l insts, l ≠ Label.stateTransition →
      findSched l e.schedules = some insts → ∀ i ∈ insts, NeverEnter s i) :
    countEnter s (runLabels e (Label.stateTransition :: rest)).2 =
      (if b then 0 else 1) ∧
    EnterOnceInv s true (runLabels e (Label.stateTransition :: rest)).1 ∧
    (runLabels e (Label.stateTransition :: rest)).1.scheduleOrder =
      e.scheduleOrder := by
  have hok : e.try_run_schedule Label.stateTransition =
      Except.ok
        ({ e with
            world := ((apply_state_transition s).run e.world).1,
            schedules := replaceSched Label.stateTransition
              [⟨run_enter_schedule s, true⟩, ⟨apply_state_transition s, b'⟩]
              e.schedules },
         Ev.ran Label.stateTransition ::
           (if b then ([] : List SysEv) else [SysEv.enterSchedule s]).map
             Ev.sys) := by
    unfold Ecs.try_run_schedule
    simp only [hfound, runSystems_transition_pair]
  have hfoundE1 : findSched Label.stateTransition
      (replaceSched Label.stateTransition
        [⟨run_enter_schedule s, true⟩, ⟨apply_state_transition s, b'⟩]
        e.schedules) =
      some [⟨run_enter_schedule s, true⟩, ⟨apply_state_transition s, b'⟩] := by
    rw [findSched_replaceSched]
    simp [hfound]
  have hneE1 : ∀ l insts, l ≠ Label.stateTransition →
      findSched l
        (replaceSched Label.stateTransition
          [⟨run_enter_schedule s, true⟩, ⟨apply_state_transition s, b'⟩]
          e.schedules) = some insts →
      ∀ i ∈ insts, NeverEnter s i := by
    intro l insts hl hfind
    rw [findSched_replaceSched, if_neg hl] at hfind
    exact hne l insts hl hfind
  unfold runLabels
  simp only [hok]
  have hrec := runLabels_no_st_enter s rest
    { e with
        world := ((apply_state_transition s).run e.world).1,
        schedules := replaceSched Label.stateTransition
          [⟨run_enter_schedule s, true⟩, ⟨apply_state_transition s, b'⟩]
          e.schedules }
    hrest hneE1
  refine ⟨?_, ⟨⟨b', hrec.2.1.trans hfoundE1⟩, hrec.2.2.1⟩, hrec.2.2.2⟩
  rw [show (Ev.attempt Label.stateTransition ::
        (Ev.ran Label.stateTransition ::
          (if b then ([] : List SysEv) else [SysEv.enterSchedule s]).map
            Ev.sys)) ++ _
      = Ev.attempt Label.stateTransition ::
          Ev.ran Label.stateTransition ::
          ((if b then ([] : List SysEv) else [SysEv.enterSchedule s]).map
            Ev.sys ++ _) from rfl,
    countEnter_attempt, countEnter_ran, countEnter_append, countEnter_map_sys,
    hrec.1]
  cases b <;> simp [countEnterSys]

theorem process_enter_step (s : SType) (b : Bool) (e : Ecs) (d : Delta)
    (ho : e.scheduleOrder = ScheduleOrder.default)
    (hinv : EnterOnceInv s b e) :
    countEnter s (e.process d).2 = (if b then 0 else 1) ∧
    EnterOnceInv s true (e.process d).1 ∧
    (e.process d).1.scheduleOrder = ScheduleOrder.default := by
  obtain ⟨⟨b', hfound⟩, hne⟩ := hinv
  have hl : ({ e with world := { e.world with processDelta := d } } : Ecs).scheduleOrder.process =
      Label.stateTransition :: [Label.preProcess, Label.process] := by
    show e.scheduleOrder.process = _
    rw [ho]
    rfl
  have hp : (e.process d).2 =
      Ev.writeProcessDelta d ::
        (runLabels { e with world := { e.world with processDelta := d } }
          ({ e with world := { e.world with processDelta := d } } : Ecs).scheduleOrder.process).2 := rfl
  have hq : (e.process d).1 =
      (runLabels { e with world := { e.world with processDelta := d } }
        ({ e with world := { e.world with processDelta := d } } : Ecs).scheduleOrder.process).1 := rfl
  have hstep := runLabels_enter_step s b b' [Label.preProcess, Label.process]
    { e with world := { e.world with processDelta := d } }
    hfound (by intro l hml; fin_cases hml <;> simp) hne
  refine ⟨?_, ?_, ?_⟩
  · rw [hp, hl, countEnter_writeProcess]
    exact hstep.1
  · rw [hq, hl]
    exact hstep.2.1
  · rw [hq, hl, hstep.2.2]
    exact ho

theorem runTicks_enter_done (s : SType) (ds : List Delta) (e : Ecs)
    (ho : e.scheduleOrder = ScheduleOrder.default)
    (hinv : EnterOnceInv s true e) :
    countEnter s (e.runTicks ds).2 = 0 := by
  induction ds generalizing e with
  | nil => rfl
  | cons d ds ih =>
    have hstep := process_enter_step s true e d ho hinv
    unfold Ecs.runTicks
    rw [countEnter_append, hstep.1, ih (e.process d).1 hstep.2.2 hstep.2.1]
    simp

theorem Ecs.init_state_of_isSome (e : Ecs) (s : SType)
    (h : (e.world.state s).isSome) : e.init_state s = e := by
  unfold Ecs.init_state
  simp [h]

theorem Ecs.init_state_of_none (e : Ecs) (s : SType)
    (h : e.world.state s = none) :
    e.init_state s =
      ({ e with
          world := (e.world.setState s (some 0)).setNextState s
            (some none) }).add_systems
        Label.stateTransition
        [⟨run_enter_schedule s, false⟩, ⟨apply_state_transition s, false⟩] := by
  unfold Ecs.init_state
  simp [h]

/-- C6: after `init_state::<S>` on an `Ecs` that has no `State<S>`
resource, no prior `StateTransition` schedule and no other system that
records an enter of `S`, any nonempty sequence of process ticks executes
`S`'s enter schedule exactly once — on the first `StateTransition` run —
and a second `init_state::<S>` call is a guarded no-op (detected via the
`State<S>` resource), adding no duplicate transition systems. -/
theorem init_state_enter_exactly_once (e : Ecs) (s : SType) (ds : List Delta)
    (ho : e.scheduleOrder = ScheduleOrder.default)
    (hs : e.world.state s = none)
    (hsched : findSched Label.stateTransition e.schedules = none)
    (hnone : ∀ p ∈ e.schedules, ∀ i ∈ p.2, NeverEnter s i)
    (hds : ds ≠ []) :
    countEnter s ((e.init_state s).runTicks ds).2 = 1 ∧
    (e.init_state s).init_state s = e.init_state s := by
  have h1 := e.init_state_of_none s hs
  have h2 : (e.init_state s).world.state s = some 0 := by
    rw [h1, Ecs.add_systems_world]
    show ((e.world.setState s (some 0)).setNextState s (some none)).state s =
      some 0
    simp [World.setState, World.setNextState]
  refine ⟨?_, (e.init_state s).init_state_of_isSome s (by rw [h2]; rfl)⟩
  have hfound : findSched Label.stateTransition (e.init_state s).schedules =
      some [⟨run_enter_schedule s, false⟩, ⟨apply_state_transition s, false⟩] := by
    rw [h1, findSched_add_systems_self]
    have hs' : findSched Label.stateTransition
        ({ e with
            world := (e.world.setState s (some 0)).setNextState s
              (some none) } : Ecs).schedules = none := hsched
    rw [hs']
    rfl
  have hne : ∀ l insts, l ≠ Label.stateTransition →
      findSched l (e.init_state s).schedules = some insts →
      ∀ i ∈ insts, NeverEnter s i := by
    intro l insts hl hfind
    rw [h1, findSched_add_systems_ne _ _ _ _ hl] at hfind
    exact hnone (l, insts) (findSched_mem l e.schedules insts hfind)
  have hord : (e.init_state s).scheduleOrder = ScheduleOrder.default := by
    rw [h1, Ecs.add_systems_order]
    exact ho
  obtain ⟨d, ds', rfl⟩ := List.exists_cons_of_ne_nil hds
  have hstep := process_enter_step s false (e.init_state s) d hord
    ⟨⟨false, hfound⟩, hne⟩
  unfold Ecs.runTicks
  rw [countEnter_append, hstep.1,
    runTicks_enter_done s ds' _ hstep.2.2 hstep.2.1]
  simp

/-- Witness for C6 on the startup `Ecs` with a single process tick. -/
theorem init_state_enter_exactly_once_witness :
    countEnter 0 ((Ecs.init.init_state 0).runTicks [1]).2 = 1 := by
  have hnone : ∀ p ∈ Ecs.init.schedules, ∀ i ∈ p.2, NeverEnter 0 i := by
    intro p hp i hi
    simp only [Ecs.init, Ecs.defaultSchedules, List.mem_cons,
      List.not_mem_nil, or_false] at hp
    rcases hp with rfl | rfl <;>
      · simp only [List.mem_cons, List.not_mem_nil, or_false] at hi
        subst hi
        intro w
        cases h : w.eventSignal <;>
          simp [quitOnEscapeSystem, event_queue_update_system, h]
  exact (init_state_enter_exactly_once Ecs.init 0 [1] rfl rfl rfl hnone
    (by decide)).1

/-! ### State transition machinery (C7) -/

theorem apply_state_transition_pending (s : SType) (v : Nat) (w : World)
    (h : w.nextState s = some (some v)) :
    ((apply_state_transition s).run w).1.state s = some v ∧
    ((apply_state_transition s).run w).1.nextState s = some none := by
  simp [apply_state_transition, h, World.setState, World.setNextState]

theorem apply_state_transition_empty (s : SType) (w : World)
    (h : w.nextState s = some none) :
    ((apply_state_transition s).run w).1 = w := by
  simp [apply_state_transition, h]

theorem runLabels_avoid_preserves {α : Type} (f : World → α) (L : Label)
    (ls : List Label) (e : Ecs)
    (hls : ∀ l ∈ ls, l ≠ L)
    (hne : ∀ l insts, l ≠ L → findSched l e.schedules = some insts →
      ∀ i ∈ insts, PreservesF f i) :
    f (runLabels e ls).1.world = f e.world ∧
    findSched L (runLabels e ls).1.schedules = findSched L e.schedules ∧
    (∀ l insts, l ≠ L → findSched l (runLabels e ls).1.schedules = some insts →
      ∀ i ∈ insts, PreservesF f i) ∧
    (runLabels e ls).1.scheduleOrder = e.scheduleOrder := by
  induction ls generalizing e with
  | nil => exact ⟨rfl, rfl, hne, rfl⟩
  | cons l ls ih =>
    have hl : l ≠ L := hls l (List.mem_cons_self l ls)
    have hls' : ∀ l' ∈ ls, l' ≠ L :=
      fun l' hl' => hls l' (List.mem_cons_of_mem l hl')
    unfold runLabels
    cases hc : e.try_run_schedule l with
    | error u =>
      have hrec := ih e hls' hne
      simp only [hc]
      exact hrec
    | ok r =>
      obtain ⟨insts, hfound, hw, hs, ho, _⟩ := try_run_schedule_ok_inv e l r hc
      have hinsts : ∀ i ∈ insts, PreservesF f i := hne l insts hl hfound
      have hworld : f r.1.world = f e.world := by
        rw [hw]
        exact runSystems_preserves f insts e.world hinsts
      have hst : findSched L r.1.schedules = findSched L e.schedules := by
        rw [hs, findSched_replaceSched]
        simp [Ne.symm hl]
      have hne' : ∀ l' insts', l' ≠ L → findSched l' r.1.schedules = some insts' →
          ∀ i ∈ insts', PreservesF f i := by
        intro l' insts' hl' hfind
        rw [hs, findSched_replaceSched] at hfind
        by_cases hll : l' = l
        · rw [if_pos hll, hfound] at hfind
          simp only [Option.map_some'] at hfind
          injection hfind with h2
          subst h2
          exact runSystems_forall_preserves f insts e.world hinsts
        · rw [if_neg hll] at hfind
          exact hne l' insts' hl' hfind
      have hrec := ih r.1 hls' hne'
      simp only [hc]
      exact ⟨hrec.1.trans hworld, hrec.2.1.trans hst, hrec.2.2.1,
        hrec.2.2.2.trans ho⟩

theorem runLabels_transition_state (s : SType) (b b' : Bool)
    (rest : List Label) (e : Ecs)
    (hfound : findSched Label.stateTransition e.schedules =
      some [⟨run_enter_schedule s, b⟩, ⟨apply_state_transition s, b'⟩])
    (hrest : ∀ l ∈ rest, l ≠ Label.stateTransition)
    (hneS : ∀ l insts, l ≠ Label.stateTransition →
      findSched l e.schedules = some insts → ∀ i ∈ insts,
        PreservesF (fun w => w.state s) i)
    (hneN : ∀ l insts, l ≠ Label.stateTransition →
      findSched l e.schedules = some insts → ∀ i ∈ insts,
        PreservesF (fun w => w.nextState s) i) :
    (runLabels e (Label.stateTransition :: rest)).1.world.state s =
      ((apply_state_transition s).run e.world).1.state s ∧
    (runLabels e (Label.stateTransition :: rest)).1.world.nextState s =
      ((apply_state_transition s).run e.world).1.nextState s ∧
    TransitionInv s (runLabels e (Label.stateTransition :: rest)).1 ∧
    (runLabels e (Label.stateTransition :: rest)).1.scheduleOrder =
      e.scheduleOrder := by
  have hok : e.try_run_schedule Label.stateTransition =
      Except.ok
        ({ e with
            world := ((apply_state_transition s).run e.world).1,
            schedules := replaceSched Label.stateTransition
              [⟨run_enter_schedule s, true⟩, ⟨apply_state_transition s, b'⟩]
              e.schedules },
         Ev.ran Label.stateTransition ::
           (if b then ([] : List SysEv) else [SysEv.enterSchedule s]).map
             Ev.sys) := by
    unfold Ecs.try_run_schedule
    simp only [hfound, runSystems_transition_pair]
  have hfoundE1 : findSched Label.stateTransition
      (replaceSched Label.stateTransition
        [⟨run_enter_schedule s, true⟩, ⟨apply_state_transition s, b'⟩]
        e.schedules) =
      some [⟨run_enter_schedule s, true⟩, ⟨apply_state_transition s, b'⟩] := by
    rw [findSched_replaceSched]
    simp [hfound]
  have hrepl : ∀ l insts, l ≠ Label.stateTransition →
      findSched l
        (replaceSched Label.stateTransition
          [⟨run_enter_schedule s, true⟩, ⟨apply_state_transition s, b'⟩]
          e.schedules) = some insts →
      findSched l e.schedules = some insts := by
    intro l insts hl hfind
    rw [findSched_replaceSched, if_neg hl] at hfind
    exact hfind
  have h1 := runLabels_avoid_preserves (fun w => w.state s)
    Label.stateTransition rest
    { e with
        world := ((apply_state_transition s).run e.world).1,
        schedules := replaceSched Label.stateTransition
          [⟨run_enter_schedule s, true⟩, ⟨apply_state_transition s, b'⟩]
          e.schedules }
    hrest (fun l insts hl hfind => hneS l insts hl (hrepl l insts hl hfind))
  have h2 := runLabels_avoid_preserves (fun w => w.nextState s)
    Label.stateTransition rest
    { e with
        world := ((apply_state_transition s).run e.world).1,
        schedules := replaceSched Label.stateTransition
          [⟨run_enter_schedule s, true⟩, ⟨apply_state_transition s, b'⟩]
          e.schedules }
    hrest (fun l insts hl hfind => hneN l insts hl (hrepl l insts hl hfind))
  unfold runLabels
  simp only [hok]
  exact ⟨h1.1, h2.1,
    ⟨⟨true, b', h1.2.1.trans hfoundE1⟩,
      fun l insts hl hf =>
        fun i hi => ⟨h1.2.2.1 l insts hl hf i hi, h2.2.2.1 l insts hl hf i hi⟩⟩,
    h1.2.2.2⟩

theorem process_transition_step (s : SType) (e : Ecs) (d : Delta)
    (ho : e.scheduleOrder = ScheduleOrder.default)
    (hinv : TransitionInv s e) :
    (∀ v, e.world.nextState s = some (some v) →
      (e.process d).1.world.state s = some v ∧
      (e.process d).1.world.nextState s = some none) ∧
    (e.world.nextState s = some none →
      (e.process d).1.world.state s = e.world.state s ∧
      (e.process d).1.world.nextState s = some none) ∧
    TransitionInv s (e.process d).1 ∧
    (e.process d).1.scheduleOrder = ScheduleOrder.default := by
  obtain ⟨⟨b, b', hfound⟩, hne⟩ := hinv
  have hl : ({ e with world := { e.world with processDelta := d } } : Ecs).scheduleOrder.process =
      Label.stateTransition :: [Label.preProcess, Label.process] := by
    show e.scheduleOrder.process = _
    rw [ho]
    rfl
  have hq : (e.process d).1 =
      (runLabels { e with world := { e.world with processDelta := d } }
        ({ e with world := { e.world with processDelta := d } } : Ecs).scheduleOrder.process).1 := rfl
  have hstep := runLabels_transition_state s b b' [Label.preProcess, Label.process]
    { e with world := { e.world with processDelta := d } }
    hfound (by intro l hml; fin_cases hml <;> simp)
    (fun l insts hl' hf i hi => (hne l insts hl' hf i hi).1)
    (fun l insts hl' hf i hi => (hne l insts hl' hf i hi).2)
  have hwn : ({ e with world := { e.world with processDelta := d } } : Ecs).world.nextState s =
      e.world.nextState s := rfl
  have hws : ({ e with world := { e.world with processDelta := d } } : Ecs).world.state s =
      e.world.state s := rfl
  refine ⟨?_, ?_, ?_, ?_⟩
  · intro v hv
    have happ := apply_state_transition_pending s v
      ({ e with world := { e.world with processDelta := d } } : Ecs).world
      (hwn.trans hv)
    rw [hq, hl]
    exact ⟨hstep.1.trans happ.1, hstep.2.1.trans happ.2⟩
  · intro hv
    have happ := apply_state_transition_empty s
      ({ e with world := { e.world with processDelta := d } } : Ecs).world
      (hwn.trans hv)
    rw [hq, hl]
    constructor
    · rw [hstep.1, happ]
    · rw [hstep.2.1, happ]
      exact hwn.trans hv
  · rw [hq, hl]
    exact hstep.2.2.1
  · rw [hq, hl, hstep.2.2.2]
    exact ho

/-- C7: for a state type registered via `init_state::<S>` (on an `Ecs`
whose other systems do not write `State<S>` or `NextState<S>`): if
`NextState<S>` holds `v` when a process tick runs, then after the tick
`State<S>` is `v` and `NextState<S>` is empty; a tick that starts with
`NextState<S>` empty leaves `State<S>` unchanged — in particular a second
tick with no new pending value changes nothing. -/
theorem state_transition_applies_and_clears (e : Ecs) (s : SType) (v : Nat)
    (d1 d2 d3 : Delta)
    (ho : e.scheduleOrder = ScheduleOrder.default)
    (hs : e.world.state s = none)
    (hsched : findSched Label.stateTransition e.schedules = none)
    (hpres : ∀ p ∈ e.schedules, ∀ i ∈ p.2,
      PreservesF (fun w => w.state s) i ∧
      PreservesF (fun w => w.nextState s) i) :
    (({ e.init_state s with
        world := (e.init_state s).world.setNextState s
          (some (some v)) } : Ecs).process d1).1.world.state s = some v ∧
    (({ e.init_state s with
        world := (e.init_state s).world.setNextState s
          (some (some v)) } : Ecs).process d1).1.world.nextState s = some none ∧
    ((({ e.init_state s with
        world := (e.init_state s).world.setNextState s
          (some (some v)) } : Ecs).process d1).1.process
        d2).1.world.state s = some v ∧
    ((({ e.init_state s with
        world := (e.init_state s).world.setNextState s
          (some (some v)) } : Ecs).process d1).1.process
        d2).1.world.nextState s = some none ∧
    ((e.init_state s).process d3).1.world.state s = some 0 ∧
    ((e.init_state s).process d3).1.world.nextState s = some none := by
  have h1 := e.init_state_of_none s hs
  have hfound : findSched Label.stateTransition (e.init_state s).schedules =
      some [⟨run_enter_schedule s, false⟩, ⟨apply_state_transition s, false⟩] := by
    rw [h1, findSched_add_systems_self]
    have hs' : findSched Label.stateTransition
        ({ e with
            world := (e.world.setState s (some 0)).setNextState s
              (some none) } : Ecs).schedules = none := hsched
    rw [hs']
    rfl
  have hne : ∀ l insts, l ≠ Label.stateTransition →
      findSched l (e.init_state s).schedules = some insts →
      ∀ i ∈ insts,
        PreservesF (fun w => w.state s) i ∧
        PreservesF (fun w => w.nextState s) i := by
    intro l insts hl hfind
    rw [h1, findSched_add_systems_ne _ _ _ _ hl] at hfind
    exact hpres (l, insts) (findSched_mem l e.schedules insts hfind)
  have hinv : TransitionInv s (e.init_state s) := ⟨⟨false, false, hfound⟩, hne⟩
  have hord : (e.init_state s).scheduleOrder = ScheduleOrder.default := by
    rw [h1, Ecs.add_systems_order]
    exact ho
  have hinitNext : (e.init_state s).world.nextState s = some none := by
    rw [h1, Ecs.add_systems_world]
    show ((e.world.setState s (some 0)).setNextState s
      (some none)).nextState s = some none
    simp [World.setState, World.setNextState]
  have hinitState : (e.init_state s).world.state s = some 0 := by
    rw [h1, Ecs.add_systems_world]
    show ((e.world.setState s (some 0)).setNextState s (some none)).state s =
      some 0
    simp [World.setState, World.setNextState]
  have hEPnext : ({ e.init_state s with
      world := (e.init_state s).world.setNextState s
        (some (some v)) } : Ecs).world.nextState s = some (some v) := by
    show ((e.init_state s).world.setNextState s
      (some (some v))).nextState s = some (some v)
    simp [World.setNextState]
  have hinvEP : TransitionInv s
      ({ e.init_state s with
          world := (e.init_state s).world.setNextState s
            (some (some v)) } : Ecs) := hinv
  have hordEP : ({ e.init_state s with
      world := (e.init_state s).world.setNextState s
        (some (some v)) } : Ecs).scheduleOrder = ScheduleOrder.default := hord
  have step1 := process_transition_step s
    { e.init_state s with
        world := (e.init_state s).world.setNextState s (some (some v)) }
    d1 hordEP hinvEP
  have ha := step1.1 v hEPnext
  have step2 := process_transition_step s _ d2 step1.2.2.2 step1.2.2.1
  have hb := step2.2.1 ha.2
  have step3 := process_transition_step s (e.init_state s) d3 hord hinv
  have hc := step3.2.1 hinitNext
  exact ⟨ha.1, ha.2, hb.1.trans ha.1, hb.2, hc.1.trans hinitState, hc.2⟩

/-- Witness for C7 on the startup `Ecs`, registering state type `0`,
setting `NextState` to `5` and running one process tick. -/
theorem state_transition_applies_and_clears_witness :
    (({ Ecs.init.init_state 0 with
        world := (Ecs.init.init_state 0).world.setNextState 0
          (some (some 5)) } : Ecs).process 1).1.world.state 0 = some 5 ∧
    (({ Ecs.init.init_state 0 with
        world := (Ecs.init.init_state 0).world.setNextState 0
          (some (some 5)) } : Ecs).process 1).1.world.nextState 0 = some none := by
  have hpres : ∀ p ∈ Ecs.init.schedules, ∀ i ∈ p.2,
      PreservesF (fun w => w.state 0) i ∧
      PreservesF (fun w => w.nextState 0) i := by
    intro p hp i hi
    simp only [Ecs.init, Ecs.defaultSchedules, List.mem_cons,
      List.not_mem_nil, or_false] at hp
    rcases hp with rfl | rfl <;>
      · simp only [List.mem_cons, List.not_mem_nil, or_false] at hi
        subst hi
        constructor <;>
          · intro w
            cases h : w.eventSignal <;>
              simp [quitOnEscapeSystem, event_queue_update_system, h]
  have h := state_transition_applies_and_clears Ecs.init 0 5 1 2 3 rfl rfl rfl
    hpres
  exact ⟨h.1, h.2.1⟩
